import Mathlib

/-!
Shallow embedding of `extract_tags_from_text` from `src/extract_tags.py`.

The Python function combines title and description into a lowercase text,
collects tags from a fixed keyword vocabulary (title-cased, whitespace
stripped, stoplist-filtered), from a state-abbreviation table (word-boundary
regex on the original title, or lowercase substring of the combined text),
from fixed pattern groups over the combined text, and from two regexes over
the original-case title (`\b(20\d{2})\b` and `Day (\d+)`), then returns the
set of tags as a lexicographically sorted duplicate-free list.

Characters are modelled at ASCII fidelity (the inputs the program targets):
`str.lower` becomes `Char.toLower` mapped over the characters, `\w` becomes
ASCII alphanumeric or underscore, `\d` becomes ASCII digits.
-/

namespace ATWFan

/-- ASCII model of the regex word-character class `\w`. -/
def isWordChar (c : Char) : Bool := c.isAlphanum || c == '_'

/-- Model of Python `str.lower` (ASCII fidelity). -/
def lowerStr (s : String) : String := ⟨s.data.map Char.toLower⟩

/-- Decides whether `pat` occurs as a contiguous sublist of the second
argument; model of Python's `pat in text` substring test. -/
def hasSub (pat : List Char) : List Char → Bool
  | [] => pat.isEmpty
  | c :: rest => pat.isPrefixOf (c :: rest) || hasSub pat rest

/-- Substring test on strings: Python `w in text`. -/
def textHas (w text : String) : Bool := hasSub w.data text.data

/-- The char before the match position admits a `\b` boundary (for a
pattern starting with a word character). -/
def noWordBefore : Option Char → Bool
  | none => true
  | some c => !isWordChar c

/-- The position right after the match admits a `\b` boundary (for a
pattern ending with a word character). -/
def noWordAfter : List Char → Bool
  | [] => true
  | c :: _ => !isWordChar c

/-- Match of `\bPAT\b` anchored at the current position: `prev` is the
character before the position (if any), `l` the rest of the text.  Sound
for the patterns the program uses, whose first and last characters are
word characters. -/
def wbAt (pat : List Char) (prev : Option Char) (l : List Char) : Bool :=
  noWordBefore prev && pat.isPrefixOf l && noWordAfter (l.drop pat.length)

/-- Scan of `re.search(r'\bPAT\b', ·)` over the remaining text. -/
def wbSearchAux (pat : List Char) : Option Char → List Char → Bool
  | prev, [] => wbAt pat prev []
  | prev, c :: rest => wbAt pat prev (c :: rest) || wbSearchAux pat (some c) rest

/-- Result of `re.search` for the word-bounded pattern over the whole
title, viewed as a Boolean. -/
def wbSearch (pat title : String) : Bool := wbSearchAux pat.data none title.data

/-- Match of the year pattern anchored at the current position; returns
the captured four digits on success. -/
def yearAt (prev : Option Char) : List Char → Option (List Char)
  | '2' :: '0' :: d1 :: d2 :: rest =>
    if noWordBefore prev && d1.isDigit && d2.isDigit && noWordAfter rest then
      some ['2', '0', d1, d2]
    else none
  | _ => none

/-- Leftmost-first scan of the year pattern over the remaining text. -/
def yearSearchAux : Option Char → List Char → Option (List Char)
  | _, [] => none
  | prev, c :: rest =>
    match yearAt prev (c :: rest) with
    | some y => some y
    | none => yearSearchAux (some c) rest

/-- First match of the year regex over the title, if any (line 101 of the
source). -/
def yearSearch (title : String) : Option (List Char) := yearSearchAux none title.data

/-- Match of the day pattern anchored at the current position. -/
def dayAt : List Char → Bool
  | 'D' :: 'a' :: 'y' :: ' ' :: c :: _ => c.isDigit
  | _ => false

/-- Scan of the day pattern over the remaining text. -/
def daySearchAux : List Char → Bool
  | [] => false
  | c :: rest => dayAt (c :: rest) || daySearchAux rest

/-- Success of the day-number regex search over the title (line 106 of the
source). -/
def daySearch (title : String) : Bool := daySearchAux title.data

/-- Model of Python `str.title` at ASCII fidelity: an alphabetic character
is uppercased when the previous character is not alphabetic, lowercased
otherwise; the flag carries whether the previous character was alphabetic. -/
def titleCaseAux : Bool → List Char → List Char
  | _, [] => []
  | prevAlpha, c :: rest =>
    (if c.isAlpha then (if prevAlpha then c.toLower else c.toUpper) else c) ::
      titleCaseAux c.isAlpha rest

/-- Tag normalization of line 60 of the source: title-case the keyword and
remove its spaces. -/
def normalizeTag (kw : String) : String :=
  ⟨(titleCaseAux false kw.data).filter (fun c => c != ' ')⟩

/-- The fixed keyword vocabulary (lines 18–54 of the source). -/
def keywords : List String :=
  [ "florida", "orlando", "disney", "disneyland", "universal", "california",
    "las vegas", "new york", "hollywood", "los angeles", "miami", "tokyo",
    "epcot", "magic kingdom", "hollywood studios", "animal kingdom",
    "kissimmee", "st cloud", "san diego", "japan", "paris", "london",
    "abandoned", "hotel", "motel", "restaurant", "theme park", "amusement park",
    "mall", "shopping center", "museum", "attraction", "resort", "casino",
    "park", "beach", "airport", "train station", "ghost town",
    "exploring", "vlog", "daily vlog", "tour", "review", "unboxing",
    "shopping", "eating", "dining", "traveling", "hiking", "walking",
    "ride", "roller coaster", "adventure", "urban exploration",
    "star wars", "marvel", "harry potter", "transformers", "jurassic",
    "walmart", "target", "mcdonalds", "taco bell", "arbys", "wendys",
    "pizza hut", "burger king", "kfc", "subway",
    "christmas", "halloween", "thanksgiving", "new year", "birthday",
    "fourth of july", "easter", "valentine",
    "haunted", "scary", "creepy", "mysterious", "historic", "vintage",
    "retro", "nostalgic", "behind the scenes", "construction", "demolition",
    "closed", "opening day", "grand opening", "last day", "final",
    "road trip", "van life", "driving", "flight", "cruise", "train",
    "food", "buffet", "breakfast", "lunch", "dinner", "snack", "dessert" ]

/-- The stoplist of line 61 of the source. -/
def stoplist : List String := ["A", "An", "The", "In", "On", "At", "To", "From"]

/-- The state table of lines 67–70 of the source, in source order. -/
def states : List (String × String) :=
  [ ("FL", "Florida"), ("CA", "California"), ("NV", "Nevada"), ("NY", "NewYork"),
    ("TX", "Texas"), ("AZ", "Arizona"), ("GA", "Georgia"), ("NC", "NorthCarolina") ]

def urbanWords : List String := ["abandoned", "exploring", "exploration", "sneaking", "closed"]

def themeParkWords : List String :=
  ["disney", "universal", "theme park", "amusement", "epcot", "magic kingdom"]

def foodWords : List String :=
  ["food", "eating", "restaurant", "buffet", "lunch", "dinner", "breakfast", "menu"]

def travelWords : List String := ["travel", "trip", "vacation", "journey", "adventure"]

def accommodationWords : List String :=
  ["hotel", "motel", "resort", "room tour", "staying at"]

/-- Condition of line 72 of the source: word-boundary match of the
abbreviation in the original-case title, or the lowercased abbreviation as
a substring of the lowercase combined text. -/
def stateHit (abbr title text : String) : Bool :=
  wbSearch abbr title || textHas (lowerStr abbr) text

/-- Tags contributed by the keyword loop (lines 57–62). -/
def keywordTags (text : String) : List String :=
  keywords.filterMap fun kw =>
    if textHas kw text then
      if normalizeTag kw ∈ stoplist then none else some (normalizeTag kw)
    else none

/-- Tags contributed by the state loop (lines 71–73). -/
def stateTags (title text : String) : List String :=
  states.filterMap fun p => if stateHit p.1 title text then some p.2 else none

/-- Tags contributed by the "Daily Woo" check (lines 76–78). -/
def dailyWooTags (text : String) : List String :=
  if textHas "daily woo" text || textHas "the daily woo" text then
    ["DailyVlog", "DailyWoo"]
  else []

/-- One tag guarded by an any-of-these-words check over the combined text
(lines 81–98). -/
def groupTags (ws : List String) (tag text : String) : List String :=
  if ws.any (fun w => textHas w text) then [tag] else []

/-- Tag contributed by the year regex on the title (lines 101–103). -/
def yearTags (title : String) : List String :=
  match yearSearch title with
  | some y => [⟨'Y' :: 'e' :: 'a' :: 'r' :: y⟩]
  | none => []

/-- Tag contributed by the day-number regex on the title (lines 106–108). -/
def dayTags (title : String) : List String :=
  if daySearch title then ["DailyVlog"] else []

/-- All tags added to the Python `tags` set, as a list with possible
duplicates; the set semantics is recovered by `sortTags` below. -/
def tagList (title text : String) : List String :=
  keywordTags text ++ stateTags title text ++ dailyWooTags text ++
  groupTags urbanWords "UrbanExploration" text ++
  groupTags themeParkWords "ThemePark" text ++
  groupTags foodWords "Food" text ++
  groupTags travelWords "Travel" text ++
  groupTags accommodationWords "Accommodation" text ++
  yearTags title ++ dayTags title

/-- Code-point comparison of characters, as Python compares them. -/
def charLt (a b : Char) : Bool := decide (a.toNat < b.toNat)

/-- Lexicographic code-point comparison of character lists: the order
Python's `sorted` uses on strings. -/
def ltList : List Char → List Char → Bool
  | [], [] => false
  | [], _ :: _ => true
  | _ :: _, [] => false
  | a :: as, b :: bs => if charLt a b then true else if charLt b a then false else ltList as bs

/-- Python's `<` on strings. -/
def strLt (s t : String) : Bool := ltList s.data t.data

/-- Insert into a strictly sorted list, skipping an element already
present: the sorted-set semantics of `sorted(list(set(...)))`. -/
def insertTag (s : String) : List String → List String
  | [] => [s]
  | t :: rest =>
    if s = t then t :: rest
    else if strLt s t then s :: t :: rest
    else t :: insertTag s rest

/-- Model of line 111 of the source: the strictly sorted list of the
distinct elements, as Python's sorted list of a set. -/
def sortTags : List String → List String
  | [] => []
  | s :: rest => insertTag s (sortTags rest)

/-- Lowercase combined text of line 15 of the source. -/
def textOf (title description : String) : String :=
  lowerStr (title ++ " " ++ description)

/-- The embedding of `extract_tags_from_text` (lines 10–111 of the source). -/
def extract_tags_from_text (title description : String) : List String :=
  sortTags (tagList title (textOf title description))

/-! ### Order lemmas for the sorted-set semantics -/

lemma char_eq_of_toNat_eq {a b : Char} (h : a.toNat = b.toNat) : a = b :=
  Char.eq_of_val_eq (UInt32.eq_of_toBitVec_eq (BitVec.eq_of_toNat_eq h))

lemma charLt_iff {a b : Char} : charLt a b = true ↔ a.toNat < b.toNat := by
  simp [charLt]

lemma charLt_irrefl (a : Char) : charLt a a = false := by
  simp [charLt]

lemma charLt_trans {a b c : Char} (h1 : charLt a b = true) (h2 : charLt b c = true) :
    charLt a c = true := by
  rw [charLt_iff] at h1 h2 ⊢
  omega

lemma char_eq_of_not_charLt {a b : Char} (h1 : charLt a b = false) (h2 : charLt b a = false) :
    a = b := by
  apply char_eq_of_toNat_eq
  have g1 : ¬ a.toNat < b.toNat := by simpa [charLt] using h1
  have g2 : ¬ b.toNat < a.toNat := by simpa [charLt] using h2
  omega

lemma ltList_irrefl : ∀ l : List Char, ltList l l = false
  | [] => rfl
  | a :: as => by
    simp only [ltList, charLt_irrefl a]
    simpa using ltList_irrefl as

lemma ltList_cons_iff {x y : Char} {xs ys : List Char} :
    ltList (x :: xs) (y :: ys) = true ↔
      charLt x y = true ∨ (x = y ∧ ltList xs ys = true) := by
  simp only [ltList]
  split_ifs with h1 h2
  · simp [h1]
  · have hne : x ≠ y := by
      intro e
      subst e
      rw [charLt_irrefl] at h2
      exact Bool.false_ne_true h2
    simp [h1, hne]
  · have hx : x = y := by
      apply char_eq_of_not_charLt
      · exact Bool.of_not_eq_true h1
      · exact Bool.of_not_eq_true h2
    subst hx
    simp [charLt_irrefl]

lemma ltList_trans : ∀ {a b c : List Char},
    ltList a b = true → ltList b c = true → ltList a c = true := by
  intro a
  induction a with
  | nil =>
    intro b c h1 h2
    cases b with
    | nil => exact absurd h1 (by simp [ltList])
    | cons y ys =>
      cases c with
      | nil => exact absurd h2 (by simp [ltList])
      | cons z zs => rfl
  | cons x xs ih =>
    intro b c h1 h2
    cases b with
    | nil => exact absurd h1 (by simp [ltList])
    | cons y ys =>
      cases c with
      | nil => exact absurd h2 (by simp [ltList])
      | cons z zs =>
        rw [ltList_cons_iff] at h1 h2 ⊢
        rcases h1 with h1 | ⟨rfl, h1⟩
        · rcases h2 with h2 | ⟨rfl, h2⟩
          · exact Or.inl (charLt_trans h1 h2)
          · exact Or.inl h1
        · rcases h2 with h2 | ⟨rfl, h2⟩
          · exact Or.inl h2
          · exact Or.inr ⟨rfl, ih h1 h2⟩

lemma ltList_eq_of_not : ∀ {a b : List Char},
    ltList a b = false → ltList b a = false → a = b := by
  intro a
  induction a with
  | nil =>
    intro b h1 _
    cases b with
    | nil => rfl
    | cons y ys => exact absurd h1 (by simp [ltList])
  | cons x xs ih =>
    intro b h1 h2
    cases b with
    | nil => exact absurd h2 (by simp [ltList])
    | cons y ys =>
      have g1 : ¬ (charLt x y = true ∨ (x = y ∧ ltList xs ys = true)) := by
        rw [← ltList_cons_iff]
        simp [h1]
      have g2 : ¬ (charLt y x = true ∨ (y = x ∧ ltList ys xs = true)) := by
        rw [← ltList_cons_iff]
        simp [h2]
      push_neg at g1 g2
      have hxy : x = y :=
        char_eq_of_not_charLt (Bool.of_not_eq_true g1.1) (Bool.of_not_eq_true g2.1)
      subst hxy
      have hs : xs = ys :=
        ih (Bool.of_not_eq_true (g1.2 rfl)) (Bool.of_not_eq_true (g2.2 rfl))
      rw [hs]

lemma str_ext {s t : String} (h : s.data = t.data) : s = t := by
  cases s
  cases t
  cases h
  rfl

lemma strLt_irrefl (s : String) : strLt s s = false := ltList_irrefl s.data

lemma strLt_trans {a b c : String} (h1 : strLt a b = true) (h2 : strLt b c = true) :
    strLt a c = true := ltList_trans h1 h2

lemma strLt_eq_of_not {a b : String} (h1 : strLt a b = false) (h2 : strLt b a = false) :
    a = b := str_ext (ltList_eq_of_not h1 h2)

/-- The strict-sortedness relation produced by `sortTags`. -/
def tagLt (a b : String) : Prop := strLt a b = true

lemma mem_insertTag {a s : String} {l : List String} :
    a ∈ insertTag s l ↔ a = s ∨ a ∈ l := by
  induction l with
  | nil => simp [insertTag]
  | cons t rest ih =>
    simp only [insertTag]
    split_ifs with h1 h2
    · subst h1
      simp only [List.mem_cons]
      tauto
    · simp [List.mem_cons]
    · simp only [List.mem_cons, ih]
      tauto

lemma pairwise_insertTag {s : String} {l : List String}
    (hl : l.Pairwise tagLt) : (insertTag s l).Pairwise tagLt := by
  induction l with
  | nil => simp [insertTag, tagLt]
  | cons t rest ih =>
    rcases List.pairwise_cons.mp hl with ⟨ht, hrest⟩
    simp only [insertTag]
    split_ifs with h1 h2
    · exact hl
    · refine List.pairwise_cons.mpr ⟨?_, hl⟩
      intro b hb
      rcases List.mem_cons.mp hb with rfl | hb'
      · exact h2
      · exact strLt_trans h2 (ht b hb')
    · have h1' : strLt s t = false := Bool.of_not_eq_true h2
      have hts : strLt t s = true := by
        cases hq : strLt t s with
        | false => exact absurd (strLt_eq_of_not hq h1').symm h1
        | true => rfl
      refine List.pairwise_cons.mpr ⟨?_, ih hrest⟩
      intro b hb
      rcases mem_insertTag.mp hb with rfl | hb'
      · exact hts
      · exact ht b hb'

lemma mem_sortTags {a : String} : ∀ {l : List String}, a ∈ sortTags l ↔ a ∈ l
  | [] => Iff.rfl
  | s :: rest => by
    simp only [sortTags, mem_insertTag, List.mem_cons, mem_sortTags (l := rest)]

lemma pairwise_sortTags : ∀ l : List String, (sortTags l).Pairwise tagLt
  | [] => List.Pairwise.nil
  | _s :: rest => pairwise_insertTag (pairwise_sortTags rest)

lemma nodup_sortTags (l : List String) : (sortTags l).Nodup := by
  refine (pairwise_sortTags l).imp ?_
  intro a b hab e
  subst e
  rw [tagLt, strLt_irrefl] at hab
  exact Bool.false_ne_true hab

lemma mem_extract_iff {s title description : String} :
    s ∈ extract_tags_from_text title description ↔
      s ∈ tagList title (textOf title description) := mem_sortTags

/-! ### Membership characterization of the tag sources -/

lemma ite_some_none_eq_some {α : Type} {c : Prop} [Decidable c] {x s : α} :
    (if c then some x else none) = some s ↔ c ∧ x = s := by
  split_ifs with h <;> simp [h]

lemma mem_ite_list {α : Type} {c : Prop} [Decidable c] {l : List α} {s : α} :
    s ∈ (if c then l else []) ↔ c ∧ s ∈ l := by
  split_ifs with h <;> simp [h]

lemma mem_keywordTags {s text : String} :
    s ∈ keywordTags text ↔
      ∃ kw ∈ keywords, textHas kw text = true ∧
        normalizeTag kw ∉ stoplist ∧ normalizeTag kw = s := by
  simp only [keywordTags, List.mem_filterMap]
  constructor
  · rintro ⟨kw, hkw, hf⟩
    refine ⟨kw, hkw, ?_⟩
    by_cases h1 : textHas kw text = true
    · rw [if_pos h1] at hf
      by_cases h2 : normalizeTag kw ∈ stoplist
      · rw [if_pos h2] at hf
        exact absurd hf (by simp)
      · rw [if_neg h2] at hf
        exact ⟨h1, h2, Option.some.inj hf⟩
    · rw [if_neg h1] at hf
      exact absurd hf (by simp)
  · rintro ⟨kw, hkw, h1, h2, h3⟩
    exact ⟨kw, hkw, by rw [if_pos h1, if_neg h2, h3]⟩

lemma mem_stateTags {s title text : String} :
    s ∈ stateTags title text ↔
      ∃ p ∈ states, stateHit p.1 title text = true ∧ p.2 = s := by
  simp only [stateTags, List.mem_filterMap, ite_some_none_eq_some]

lemma mem_dailyWooTags {s text : String} :
    s ∈ dailyWooTags text ↔
      (textHas "daily woo" text || textHas "the daily woo" text) = true ∧
        (s = "DailyVlog" ∨ s = "DailyWoo") := by
  simp only [dailyWooTags, mem_ite_list (c := _ = true), List.mem_cons,
    List.mem_singleton, List.not_mem_nil, or_false]

lemma mem_groupTags {ws : List String} {tag text s : String} :
    s ∈ groupTags ws tag text ↔
      (ws.any fun w => textHas w text) = true ∧ s = tag := by
  simp only [groupTags, mem_ite_list (c := _ = true), List.mem_singleton]

lemma mem_yearTags {s title : String} :
    s ∈ yearTags title ↔
      ∃ y, yearSearch title = some y ∧ s = ⟨'Y' :: 'e' :: 'a' :: 'r' :: y⟩ := by
  unfold yearTags
  cases h : yearSearch title with
  | none => simp
  | some y => simp [List.mem_singleton]

lemma mem_dayTags {s title : String} :
    s ∈ dayTags title ↔ daySearch title = true ∧ s = "DailyVlog" := by
  simp only [dayTags, mem_ite_list (c := _ = true), List.mem_singleton]

/-- Exhaustive split of a tag over the ten sources that feed the Python
`tags` set. -/
lemma tagList_cases {s title text : String} (h : s ∈ tagList title text) :
    s ∈ keywordTags text ∨ s ∈ stateTags title text ∨ s ∈ dailyWooTags text ∨
    s ∈ groupTags urbanWords "UrbanExploration" text ∨
    s ∈ groupTags themeParkWords "ThemePark" text ∨
    s ∈ groupTags foodWords "Food" text ∨
    s ∈ groupTags travelWords "Travel" text ∨
    s ∈ groupTags accommodationWords "Accommodation" text ∨
    s ∈ yearTags title ∨ s ∈ dayTags title := by
  simpa only [tagList, List.mem_append, or_assoc] using h

lemma tagList_of_keyword {s title text : String} (h : s ∈ keywordTags text) :
    s ∈ tagList title text := by
  simp only [tagList, List.mem_append]
  tauto

lemma tagList_of_state {s title text : String} (h : s ∈ stateTags title text) :
    s ∈ tagList title text := by
  simp only [tagList, List.mem_append]
  tauto

lemma tagList_of_dailyWoo {s title text : String} (h : s ∈ dailyWooTags text) :
    s ∈ tagList title text := by
  simp only [tagList, List.mem_append]
  tauto

lemma tagList_of_group {s title text : String} {ws : List String} {tag : String}
    (hws : groupTags ws tag text ∈
      [groupTags urbanWords "UrbanExploration" text,
       groupTags themeParkWords "ThemePark" text,
       groupTags foodWords "Food" text,
       groupTags travelWords "Travel" text,
       groupTags accommodationWords "Accommodation" text])
    (h : s ∈ groupTags ws tag text) : s ∈ tagList title text := by
  simp only [List.mem_cons, List.not_mem_nil, or_false] at hws
  simp only [tagList, List.mem_append]
  rcases hws with e | e | e | e | e <;> rw [e] at h <;> tauto

lemma tagList_of_year {s title text : String} (h : s ∈ yearTags title) :
    s ∈ tagList title text := by
  simp only [tagList, List.mem_append]
  tauto

lemma tagList_of_day {s title text : String} (h : s ∈ dayTags title) :
    s ∈ tagList title text := by
  simp only [tagList, List.mem_append]
  tauto

/-! ### Monotonicity of the substring checks in the text -/

lemma bor_true {a b : Bool} : (a || b) = true ↔ a = true ∨ b = true := by
  cases a <;> cases b <;> simp

lemma isPrefixOf_append {p l m : List Char} (h : p.isPrefixOf l = true) :
    p.isPrefixOf (l ++ m) = true := by
  rw [List.isPrefixOf_iff_prefix] at h ⊢
  exact h.trans (List.prefix_append l m)

lemma hasSub_nil_left : ∀ m : List Char, hasSub [] m = true
  | [] => rfl
  | _c :: _rest => by simp [hasSub, List.isPrefixOf]

lemma hasSub_append {pat l m : List Char} (h : hasSub pat l = true) :
    hasSub pat (l ++ m) = true := by
  induction l with
  | nil =>
    have hp : pat = [] := by simpa [hasSub] using h
    subst hp
    simpa using hasSub_nil_left m
  | cons c rest ih =>
    simp only [List.cons_append, hasSub, Bool.or_eq_true] at h ⊢
    rcases h with h | h
    · left
      have h2 := isPrefixOf_append (m := m) h
      simpa [List.cons_append] using h2
    · right
      exact ih h

lemma data_append (s t : String) : (s ++ t).data = s.data ++ t.data := rfl

lemma textHas_append {w te ex : String} (h : textHas w te = true) :
    textHas w (te ++ ex) = true := by
  unfold textHas at h ⊢
  rw [data_append]
  exact hasSub_append h

lemma stateHit_append {abbr title te ex : String} (h : stateHit abbr title te = true) :
    stateHit abbr title (te ++ ex) = true := by
  unfold stateHit at h ⊢
  rcases bor_true.mp h with h | h
  · exact bor_true.mpr (Or.inl h)
  · exact bor_true.mpr (Or.inr (textHas_append h))

lemma mem_groupTags_append {ws : List String} {tag te ex s : String}
    (h : s ∈ groupTags ws tag te) : s ∈ groupTags ws tag (te ++ ex) := by
  rcases mem_groupTags.mp h with ⟨h1, h2⟩
  refine mem_groupTags.mpr ⟨?_, h2⟩
  simp only [List.any_eq_true] at h1 ⊢
  rcases h1 with ⟨w, hw, hh⟩
  exact ⟨w, hw, textHas_append hh⟩

lemma tagList_append_text {s title te ex : String} (h : s ∈ tagList title te) :
    s ∈ tagList title (te ++ ex) := by
  rcases tagList_cases h with h | h | h | h | h | h | h | h | h | h
  · apply tagList_of_keyword
    rcases mem_keywordTags.mp h with ⟨kw, hkw, h1, h2, h3⟩
    exact mem_keywordTags.mpr ⟨kw, hkw, textHas_append h1, h2, h3⟩
  · apply tagList_of_state
    rcases mem_stateTags.mp h with ⟨p, hp, h1, h2⟩
    exact mem_stateTags.mpr ⟨p, hp, stateHit_append h1, h2⟩
  · apply tagList_of_dailyWoo
    rcases mem_dailyWooTags.mp h with ⟨h1, h2⟩
    refine mem_dailyWooTags.mpr ⟨?_, h2⟩
    rcases bor_true.mp h1 with h1 | h1
    · exact bor_true.mpr (Or.inl (textHas_append h1))
    · exact bor_true.mpr (Or.inr (textHas_append h1))
  · exact tagList_of_group (by simp) (mem_groupTags_append h)
  · exact tagList_of_group (by simp) (mem_groupTags_append h)
  · exact tagList_of_group (by simp) (mem_groupTags_append h)
  · exact tagList_of_group (by simp) (mem_groupTags_append h)
  · exact tagList_of_group (by simp) (mem_groupTags_append h)
  · exact tagList_of_year h
  · exact tagList_of_day h

lemma textOf_append (t d suf : String) :
    textOf t (d ++ suf) = textOf t d ++ lowerStr suf := by
  apply str_ext
  show (t ++ " " ++ (d ++ suf)).data.map Char.toLower =
    (t ++ " " ++ d).data.map Char.toLower ++ suf.data.map Char.toLower
  have h1 : (t ++ " " ++ (d ++ suf)).data = (t ++ " " ++ d).data ++ suf.data := by
    simp only [data_append, List.append_assoc]
  rw [h1, List.map_append]

lemma textOf_congr {t d d' : String} (h : lowerStr d = lowerStr d') :
    textOf t d = textOf t d' := by
  have hd : d.data.map Char.toLower = d'.data.map Char.toLower := congrArg String.data h
  apply str_ext
  show (t ++ " " ++ d).data.map Char.toLower = (t ++ " " ++ d').data.map Char.toLower
  simp only [data_append, List.map_append, hd]

/-! ### Facts about the fixed tables, checked by evaluation -/

set_option maxHeartbeats 2000000 in
lemma keywords_normalize_ne_empty : ∀ kw ∈ keywords, normalizeTag kw ≠ "" := by decide

set_option maxHeartbeats 2000000 in
lemma keywords_normalize_head : ∀ kw ∈ keywords, (normalizeTag kw).data.head? ≠ some 'Y' := by
  decide

set_option maxHeartbeats 2000000 in
lemma keywords_normalize_dailyVlog :
    ∀ kw ∈ keywords, normalizeTag kw = "DailyVlog" → kw = "daily vlog" := by decide

lemma states_snd_ne_empty : ∀ p ∈ states, p.2 ≠ "" := by decide

lemma states_snd_inj : ∀ p ∈ states, ∀ q ∈ states, q.2 = p.2 → q = p := by decide

lemma states_snd_not_stoplist : ∀ p ∈ states, p.2 ∉ stoplist := by decide

lemma states_head_ne_Y : ∀ p ∈ states, p.2.data.head? ≠ some 'Y' := by decide

lemma states_snd_ne_fixed : ∀ p ∈ states, p.2 ≠ "DailyVlog" ∧ p.2 ≠ "DailyWoo" ∧
    p.2 ≠ "UrbanExploration" ∧ p.2 ≠ "ThemePark" ∧ p.2 ≠ "Food" ∧
    p.2 ≠ "Travel" ∧ p.2 ≠ "Accommodation" := by decide

lemma stoplist_head_ne_Y : ∀ w ∈ stoplist, w.data.head? ≠ some 'Y' := by decide

lemma mk_cons_ne_of_head {c : Char} {cs : List Char} {w : String}
    (h : w.data.head? ≠ some c) : w ≠ ⟨c :: cs⟩ := by
  intro e
  apply h
  rw [e]
  rfl

/-! ### Source analysis: which rules can emit which tags -/

lemma year_headed_mem {t d s : String} (hs : s ∈ extract_tags_from_text t d)
    (hY : s.data.head? = some 'Y') :
    ∃ y, yearSearch t = some y ∧ s = ⟨'Y' :: 'e' :: 'a' :: 'r' :: y⟩ := by
  rw [mem_extract_iff] at hs
  rcases tagList_cases hs with h | h | h | h | h | h | h | h | h | h
  · rcases mem_keywordTags.mp h with ⟨kw, hkw, _, _, h3⟩
    exact absurd hY (h3 ▸ keywords_normalize_head kw hkw)
  · rcases mem_stateTags.mp h with ⟨q, hq, _, h2⟩
    exact absurd hY (h2 ▸ states_head_ne_Y q hq)
  · rcases (mem_dailyWooTags.mp h).2 with rfl | rfl <;> exact absurd hY (by decide)
  · rcases (mem_groupTags.mp h).2 with rfl
    exact absurd hY (by decide)
  · rcases (mem_groupTags.mp h).2 with rfl
    exact absurd hY (by decide)
  · rcases (mem_groupTags.mp h).2 with rfl
    exact absurd hY (by decide)
  · rcases (mem_groupTags.mp h).2 with rfl
    exact absurd hY (by decide)
  · rcases (mem_groupTags.mp h).2 with rfl
    exact absurd hY (by decide)
  · exact mem_yearTags.mp h
  · rcases (mem_dayTags.mp h).2 with rfl
    exact absurd hY (by decide)

lemma state_tag_sources {t d : String} {p : String × String} (hp : p ∈ states)
    (hs : p.2 ∈ extract_tags_from_text t d) :
    wbSearch p.1 t = true ∨ textHas (lowerStr p.1) (textOf t d) = true ∨
      ∃ kw ∈ keywords, textHas kw (textOf t d) = true ∧ normalizeTag kw = p.2 := by
  rw [mem_extract_iff] at hs
  rcases tagList_cases hs with h | h | h | h | h | h | h | h | h | h
  · rcases mem_keywordTags.mp h with ⟨kw, hkw, h1, _, h3⟩
    exact Or.inr (Or.inr ⟨kw, hkw, h1, h3⟩)
  · rcases mem_stateTags.mp h with ⟨q, hq, h1, h2⟩
    have hqp : q = p := states_snd_inj p hp q hq h2
    subst hqp
    unfold stateHit at h1
    rcases bor_true.mp h1 with h1 | h1
    · exact Or.inl h1
    · exact Or.inr (Or.inl h1)
  · rcases (mem_dailyWooTags.mp h).2 with e | e
    · exact absurd e (states_snd_ne_fixed p hp).1
    · exact absurd e (states_snd_ne_fixed p hp).2.1
  · exact absurd (mem_groupTags.mp h).2 (states_snd_ne_fixed p hp).2.2.1
  · exact absurd (mem_groupTags.mp h).2 (states_snd_ne_fixed p hp).2.2.2.1
  · exact absurd (mem_groupTags.mp h).2 (states_snd_ne_fixed p hp).2.2.2.2.1
  · exact absurd (mem_groupTags.mp h).2 (states_snd_ne_fixed p hp).2.2.2.2.2.1
  · exact absurd (mem_groupTags.mp h).2 (states_snd_ne_fixed p hp).2.2.2.2.2.2
  · rcases mem_yearTags.mp h with ⟨y, _, e⟩
    exact absurd e (mk_cons_ne_of_head (states_head_ne_Y p hp))
  · exact absurd (mem_dayTags.mp h).2 (states_snd_ne_fixed p hp).1

lemma dailyVlog_sources {t d : String}
    (hs : ("DailyVlog" : String) ∈ extract_tags_from_text t d) :
    daySearch t = true ∨ textHas "daily woo" (textOf t d) = true ∨
      textHas "the daily woo" (textOf t d) = true ∨
      textHas "daily vlog" (textOf t d) = true := by
  rw [mem_extract_iff] at hs
  rcases tagList_cases hs with h | h | h | h | h | h | h | h | h | h
  · rcases mem_keywordTags.mp h with ⟨kw, hkw, h1, _, h3⟩
    have hkv : kw = "daily vlog" := keywords_normalize_dailyVlog kw hkw h3
    subst hkv
    exact Or.inr (Or.inr (Or.inr h1))
  · rcases mem_stateTags.mp h with ⟨q, hq, _, h2⟩
    exact absurd h2 (states_snd_ne_fixed q hq).1
  · rcases mem_dailyWooTags.mp h with ⟨h1, _⟩
    rcases bor_true.mp h1 with h1 | h1
    · exact Or.inr (Or.inl h1)
    · exact Or.inr (Or.inr (Or.inl h1))
  · exact absurd (mem_groupTags.mp h).2 (by decide)
  · exact absurd (mem_groupTags.mp h).2 (by decide)
  · exact absurd (mem_groupTags.mp h).2 (by decide)
  · exact absurd (mem_groupTags.mp h).2 (by decide)
  · exact absurd (mem_groupTags.mp h).2 (by decide)
  · rcases mem_yearTags.mp h with ⟨y, _, e⟩
    exact absurd e (mk_cons_ne_of_head (by decide))
  · exact Or.inl (mem_dayTags.mp h).1

lemma stoplist_not_mem {t d w : String} (hw : w ∈ stoplist) :
    w ∉ extract_tags_from_text t d := by
  intro hs
  rw [mem_extract_iff] at hs
  rcases tagList_cases hs with h | h | h | h | h | h | h | h | h | h
  · rcases mem_keywordTags.mp h with ⟨kw, _, _, h2, h3⟩
    exact h2 (h3 ▸ hw)
  · rcases mem_stateTags.mp h with ⟨q, hq, _, h2⟩
    exact states_snd_not_stoplist q hq (h2 ▸ hw)
  · rcases (mem_dailyWooTags.mp h).2 with rfl | rfl <;> revert hw <;> decide
  · rcases (mem_groupTags.mp h).2 with rfl
    revert hw
    decide
  · rcases (mem_groupTags.mp h).2 with rfl
    revert hw
    decide
  · rcases (mem_groupTags.mp h).2 with rfl
    revert hw
    decide
  · rcases (mem_groupTags.mp h).2 with rfl
    revert hw
    decide
  · rcases (mem_groupTags.mp h).2 with rfl
    revert hw
    decide
  · rcases mem_yearTags.mp h with ⟨y, _, e⟩
    exact mk_cons_ne_of_head (stoplist_head_ne_Y w hw) e
  · rcases (mem_dayTags.mp h).2 with rfl
    revert hw
    decide

lemma extract_ne_empty {t d s : String} (hs : s ∈ extract_tags_from_text t d) :
    s ≠ "" := by
  rw [mem_extract_iff] at hs
  rcases tagList_cases hs with h | h | h | h | h | h | h | h | h | h
  · rcases mem_keywordTags.mp h with ⟨kw, hkw, _, _, h3⟩
    exact h3 ▸ keywords_normalize_ne_empty kw hkw
  · rcases mem_stateTags.mp h with ⟨q, hq, _, h2⟩
    exact h2 ▸ states_snd_ne_empty q hq
  · rcases (mem_dailyWooTags.mp h).2 with rfl | rfl <;> decide
  · rcases (mem_groupTags.mp h).2 with rfl
    decide
  · rcases (mem_groupTags.mp h).2 with rfl
    decide
  · rcases (mem_groupTags.mp h).2 with rfl
    decide
  · rcases (mem_groupTags.mp h).2 with rfl
    decide
  · rcases (mem_groupTags.mp h).2 with rfl
    decide
  · rcases mem_yearTags.mp h with ⟨y, _, rfl⟩
    intro e
    exact mk_cons_ne_of_head (c := 'Y') (by decide) e.symm
  · rcases (mem_dayTags.mp h).2 with rfl
    decide

lemma countP_le_one_of_unique {α : Type} {p : α → Bool} :
    ∀ {l : List α}, l.Nodup → (∀ a ∈ l, ∀ b ∈ l, p a = true → p b = true → a = b) →
      l.countP p ≤ 1 := by
  intro l
  induction l with
  | nil =>
    intro _ _
    simp
  | cons x xs ih =>
    intro hn hu
    rcases List.nodup_cons.mp hn with ⟨hx, hxs⟩
    rw [List.countP_cons]
    by_cases hp : p x = true
    · have h0 : xs.countP p = 0 := by
        rw [List.countP_eq_zero]
        intro b hb hpb
        have e : x = b := hu x (List.mem_cons_self x xs) b (List.mem_cons_of_mem _ hb) hp hpb
        subst e
        exact hx hb
      rw [h0, if_pos hp]
    · rw [if_neg hp, Nat.add_zero]
      exact ih hxs fun a ha b hb hpa hpb =>
        hu a (List.mem_cons_of_mem _ ha) b (List.mem_cons_of_mem _ hb) hpa hpb

/-! ### The claims -/

/-- C1: for every pair of input strings, the list returned by
`extract_tags_from_text` is sorted in strictly increasing lexicographic
code-point order, contains no duplicate entries, and contains no
empty-string entries. -/
theorem C1_sorted_nodup_no_empty (t d : String) :
    (extract_tags_from_text t d).Pairwise tagLt ∧
    (extract_tags_from_text t d).Nodup ∧
    ∀ s ∈ extract_tags_from_text t d, s ≠ "" := by
  refine ⟨pairwise_sortTags _, nodup_sortTags _, ?_⟩
  intro s hs
  exact extract_ne_empty hs

/-- Witness for C1 at a concrete input. -/
theorem C1_witness : ("Florida" : String) ≠ "" :=
  (C1_sorted_nodup_no_empty "" "fl").2.2 "Florida" (by decide)

/-- Counterexample to C2 as stated: on title `""` and description `"fl"`
the state tag `Florida` is emitted although the case-sensitive
word-boundary search for its abbreviation fails on the original title. -/
theorem C2_counterexample :
    ("Florida" : String) ∈ extract_tags_from_text "" "fl" ∧
    wbSearch "FL" "" = false := by
  decide

/-- C2 (amended): vocabulary matching is case-insensitive over the
lowercase combined text; a state tag is emitted only if the case-sensitive
word-boundary match succeeds on the original title, or the lowercased
abbreviation occurs in the lowercase combined text, or a vocabulary
keyword normalizing to the same tag occurs there; a tag starting with `Y`
arises only from the case-sensitive year regex on the original title; and
`DailyVlog` arises only from the case-sensitive day regex on the title or
from the phrase checks or the `daily vlog` keyword over the combined
text. -/
theorem C2_matching_amended (t d : String) :
    (∀ kw ∈ keywords, textHas kw (textOf t d) = true → normalizeTag kw ∉ stoplist →
       normalizeTag kw ∈ extract_tags_from_text t d) ∧
    (∀ p ∈ states, p.2 ∈ extract_tags_from_text t d →
       wbSearch p.1 t = true ∨ textHas (lowerStr p.1) (textOf t d) = true ∨
         ∃ kw ∈ keywords, textHas kw (textOf t d) = true ∧ normalizeTag kw = p.2) ∧
    (∀ s ∈ extract_tags_from_text t d, s.data.head? = some 'Y' →
       ∃ y, yearSearch t = some y ∧ s = ⟨'Y' :: 'e' :: 'a' :: 'r' :: y⟩) ∧
    (("DailyVlog" : String) ∈ extract_tags_from_text t d →
       daySearch t = true ∨ textHas "daily woo" (textOf t d) = true ∨
         textHas "the daily woo" (textOf t d) = true ∨
         textHas "daily vlog" (textOf t d) = true) := by
  refine ⟨?_, ?_, ?_, ?_⟩
  · intro kw hkw h1 h2
    rw [mem_extract_iff]
    exact tagList_of_keyword (mem_keywordTags.mpr ⟨kw, hkw, h1, h2, rfl⟩)
  · intro p hp hs
    exact state_tag_sources hp hs
  · intro s hs hY
    exact year_headed_mem hs hY
  · intro hs
    exact dailyVlog_sources hs

/-- Witness for the amended C2 at a concrete input. -/
theorem C2_witness :
    wbSearch "FL" "Trip to FL" = true ∨
      textHas (lowerStr "FL") (textOf "Trip to FL" "") = true ∨
      ∃ kw ∈ keywords, textHas kw (textOf "Trip to FL" "") = true ∧
        normalizeTag kw = "Florida" :=
  (C2_matching_amended "Trip to FL" "").2.1 ("FL", "Florida") (by decide) (by decide)

/-- C3: each canonical state tag is included whenever its abbreviation
matches with word boundaries in the original-case title or its lowercased
abbreviation occurs as a substring of the lowercase combined text. -/
theorem C3_state_inclusion (t d abbr full : String)
    (hmem : (abbr, full) ∈ states)
    (hcond : wbSearch abbr t = true ∨ textHas (lowerStr abbr) (textOf t d) = true) :
    full ∈ extract_tags_from_text t d := by
  rw [mem_extract_iff]
  apply tagList_of_state
  apply mem_stateTags.mpr
  refine ⟨(abbr, full), hmem, ?_, rfl⟩
  unfold stateHit
  rcases hcond with h | h
  · exact bor_true.mpr (Or.inl h)
  · exact bor_true.mpr (Or.inr h)

/-- Witness for C3 at a concrete input. -/
theorem C3_witness : ("Florida" : String) ∈ extract_tags_from_text "Lost in FL" "" :=
  C3_state_inclusion "Lost in FL" "" "FL" "Florida" (by decide) (Or.inl (by decide))

/-- C4: every vocabulary keyword occurring (case-insensitively) in the
lowercase combined text contributes its title-cased, whitespace-stripped
tag unless that tag is a stoplist word; stoplist words never appear in the
output; and the spec's example emits `Exploring`, `Abandoned`, `Mall`. -/
theorem C4_keyword_tags (t d kw : String) (hkw : kw ∈ keywords)
    (hsub : textHas kw (textOf t d) = true) :
    (normalizeTag kw ∉ stoplist → normalizeTag kw ∈ extract_tags_from_text t d) ∧
    (∀ w ∈ stoplist, w ∉ extract_tags_from_text t d) ∧
    (("Exploring" : String) ∈ extract_tags_from_text "Exploring an ABANDONED Mall in FL" "" ∧
     ("Abandoned" : String) ∈ extract_tags_from_text "Exploring an ABANDONED Mall in FL" "" ∧
     ("Mall" : String) ∈ extract_tags_from_text "Exploring an ABANDONED Mall in FL" "") := by
  refine ⟨?_, ?_, by decide⟩
  · intro h2
    rw [mem_extract_iff]
    exact tagList_of_keyword (mem_keywordTags.mpr ⟨kw, hkw, hsub, h2, rfl⟩)
  · intro w hw
    exact stoplist_not_mem hw

/-- Witness for C4 at a concrete input. -/
theorem C4_witness :
    ("Mall" : String) ∈ extract_tags_from_text "Exploring an ABANDONED Mall in FL" "" :=
  (C4_keyword_tags "Exploring an ABANDONED Mall in FL" "" "mall"
    (by decide) (by decide)).1 (by decide)

/-- C5: whenever the year regex finds a first match `y` in the title, the
tag formed of `Year` followed by the four digits is in the output, and the
output never contains more than one tag starting with `Y` (hence at most
one `Year` tag). -/
theorem C5_year_tag (t d : String) (y : List Char) (hy : yearSearch t = some y) :
    (⟨'Y' :: 'e' :: 'a' :: 'r' :: y⟩ : String) ∈ extract_tags_from_text t d ∧
    (extract_tags_from_text t d).countP (fun s => decide (s.data.head? = some 'Y')) ≤ 1 := by
  constructor
  · rw [mem_extract_iff]
    exact tagList_of_year (mem_yearTags.mpr ⟨y, hy, rfl⟩)
  · apply countP_le_one_of_unique (nodup_sortTags _)
    intro a ha b hb hpa hpb
    rcases year_headed_mem (t := t) (d := d) ha (by simpa using hpa) with ⟨ya, hya, rfl⟩
    rcases year_headed_mem (t := t) (d := d) hb (by simpa using hpb) with ⟨yb, hyb, rfl⟩
    rw [hy] at hya hyb
    rw [(Option.some.inj hya).symm, (Option.some.inj hyb).symm]

/-- Witness for C5 at the spec's example input. -/
theorem C5_witness :
    yearSearch "Disney Epcot Food Tour 2022" = some ['2', '0', '2', '2'] ∧
    ("Year2022" : String) ∈
      extract_tags_from_text "Disney Epcot Food Tour 2022" "Eating our way through Epcot" :=
  ⟨by decide,
   (C5_year_tag "Disney Epcot Food Tour 2022" "Eating our way through Epcot"
     ['2', '0', '2', '2'] (by decide)).1⟩

/-- C6: when the lowercase combined text contains `daily woo` (or
`the daily woo`), both `DailyVlog` and `DailyWoo` are emitted; when the
title matches `Day` followed by a space and a digit, `DailyVlog` is
emitted; and on `extract("Daily Woo Day 47", "")`, where both rules fire,
`DailyVlog` appears exactly once. -/
theorem C6_daily (t d : String) :
    ((textHas "daily woo" (textOf t d) || textHas "the daily woo" (textOf t d)) = true →
      ("DailyVlog" : String) ∈ extract_tags_from_text t d ∧
      ("DailyWoo" : String) ∈ extract_tags_from_text t d) ∧
    (daySearch t = true → ("DailyVlog" : String) ∈ extract_tags_from_text t d) ∧
    (extract_tags_from_text "Daily Woo Day 47" "").count "DailyVlog" = 1 := by
  refine ⟨?_, ?_, by decide⟩
  · intro h
    constructor
    · rw [mem_extract_iff]
      exact tagList_of_dailyWoo (mem_dailyWooTags.mpr ⟨h, Or.inl rfl⟩)
    · rw [mem_extract_iff]
      exact tagList_of_dailyWoo (mem_dailyWooTags.mpr ⟨h, Or.inr rfl⟩)
  · intro h
    rw [mem_extract_iff]
    exact tagList_of_day (mem_dayTags.mpr ⟨h, rfl⟩)

/-- Witness for C6 at the spec's example input. -/
theorem C6_witness :
    (("DailyVlog" : String) ∈ extract_tags_from_text "Daily Woo Day 47" "" ∧
     ("DailyWoo" : String) ∈ extract_tags_from_text "Daily Woo Day 47" "") ∧
    ("DailyVlog" : String) ∈ extract_tags_from_text "Daily Woo Day 47" "" :=
  ⟨(C6_daily "Daily Woo Day 47" "").1 (by decide),
   (C6_daily "Daily Woo Day 47" "").2.1 (by decide)⟩

/-- C7: the extraction is a total function of its two string inputs (it is
defined as a total Lean function over all strings), and on the empty
inputs it returns the empty list. -/
theorem C7_empty_input : extract_tags_from_text "" "" = [] := by decide

/-- C8: the extraction is deterministic — two calls with identical title
and description yield identical output lists. -/
theorem C8_deterministic (t₁ d₁ t₂ d₂ : String) (ht : t₁ = t₂) (hd : d₁ = d₂) :
    extract_tags_from_text t₁ d₁ = extract_tags_from_text t₂ d₂ := by
  rw [ht, hd]

/-- Witness for C8 at a concrete input. -/
theorem C8_witness :
    extract_tags_from_text "Daily Woo Day 47" "" =
      extract_tags_from_text "Daily Woo Day 47" "" :=
  C8_deterministic "Daily Woo Day 47" "" "Daily Woo Day 47" "" rfl rfl

/-- C9: appending text to the description is monotone — every tag
extracted from `(t, d)` is also extracted from `(t, d ++ suf)`. -/
theorem C9_description_monotone (t d suf x : String)
    (h : x ∈ extract_tags_from_text t d) :
    x ∈ extract_tags_from_text t (d ++ suf) := by
  rw [mem_extract_iff] at h ⊢
  rw [textOf_append]
  exact tagList_append_text h

/-- Witness for C9 at a concrete input. -/
theorem C9_witness :
    ("Food" : String) ∈ extract_tags_from_text "a" "food" ∧
    ("Food" : String) ∈ extract_tags_from_text "a" ("food" ++ "x") :=
  ⟨by decide, C9_description_monotone "a" "food" "x" "Food" (by decide)⟩

/-- C10: the result depends on the description only through its lowercase
form — descriptions with equal lowercasings give equal outputs (the
original-case title-only checks never consult the description). -/
theorem C10_lowercase_description (t d d' : String) (h : lowerStr d = lowerStr d') :
    extract_tags_from_text t d = extract_tags_from_text t d' := by
  unfold extract_tags_from_text
  rw [textOf_congr h]

/-- Witness for C10 at a concrete input. -/
theorem C10_witness :
    extract_tags_from_text "x" "FOOD" = extract_tags_from_text "x" "food" :=
  C10_lowercase_description "x" "FOOD" "food" (by decide)

end ATWFan
